import Mathlib

/-!
Verification of the pymorphy-api annotation service (`app.py`).

Strings are modelled as `List Char` (Python `str` is a sequence of Unicode
code points).  The external morphological analyzer (`pymorphy2`) and the NER
stack (`natasha`) are modelled as oracles: the analyzer is a function from a
normalized word to its ranked candidate list of normal forms, and the NER
stack is a record of fallible `segment` / `tag` / span-`normalize`
operations.  Python exceptions are modelled with `Except` / `Option`.
-/

namespace App

/-- Convert a string literal to the `List Char` representation used throughout. -/
def str (s : String) : List Char := s.toList

/-! ## Word Tokenizer (`_WORD_RE = re.compile(r"[A-Za-zА-Яа-яЁё0-9]+")`, app.py line 52) -/

/-- The character class `[A-Za-zА-Яа-яЁё0-9]` of `_WORD_RE`:
Latin letters, the Cyrillic ranges А-Я / а-я plus Ё / ё, and ASCII digits. -/
def isWordChar (c : Char) : Bool :=
  (65 ≤ c.toNat && c.toNat ≤ 90) || (97 ≤ c.toNat && c.toNat ≤ 122) ||
  (0x410 ≤ c.toNat && c.toNat ≤ 0x42F) || (0x430 ≤ c.toNat && c.toNat ≤ 0x44F) ||
  c.toNat == 0x401 || c.toNat == 0x451 || (48 ≤ c.toNat && c.toNat ≤ 57)

/-- A match of `_WORD_RE.finditer`: `text = m.group(0)`, `start = m.start()`,
`stop = m.end()` (half-open offsets into the source). -/
structure Token where
  text : List Char
  start : Nat
  stop : Nat
deriving DecidableEq, Repr

/-- `_WORD_RE.finditer(text)` scanning from absolute position `i`: a maximal
run of word characters becomes one match; any other character is skipped. -/
def tokenizeFrom (cs : List Char) (i : Nat) : List Token :=
  match cs with
  | [] => []
  | c :: rest =>
    if isWordChar c then
      ⟨(c :: rest).takeWhile isWordChar, i, i + ((c :: rest).takeWhile isWordChar).length⟩ ::
        tokenizeFrom ((c :: rest).dropWhile isWordChar)
          (i + ((c :: rest).takeWhile isWordChar).length)
    else
      tokenizeFrom rest (i + 1)
termination_by cs.length
decreasing_by
· simp only [List.dropWhile_cons, *, if_pos, List.length_cons]
  exact Nat.lt_succ_of_le (List.dropWhile_sublist _).length_le
· simp

/-- `_WORD_RE.finditer(text)` as used by `lemmatize_text` (app.py line 107). -/
def tokenize (text : List Char) : List Token := tokenizeFrom text 0

/-! ## Token Normalizer (`normalize_token`, app.py lines 54-60):
`token.lower().replace("ё", "е").strip()`. -/

/-- Python `str.lower`, per code point, on the ranges relevant to the word
alphabet: `A-Z` and `А-Я` shift into their lowercase ranges, `Ё` maps to `ё`;
every other character of interest is already caseless or lowercase and is
left unchanged. -/
def pyLower (c : Char) : Char :=
  if 65 ≤ c.toNat ∧ c.toNat ≤ 90 then Char.ofNat (c.toNat + 32)
  else if 0x410 ≤ c.toNat ∧ c.toNat ≤ 0x42F then Char.ofNat (c.toNat + 32)
  else if c.toNat = 0x401 then Char.ofNat 0x451
  else c

/-- One step of `.replace("ё", "е")` (both pattern and replacement are single
characters, so `str.replace` is a per-character map): `ё` (U+0451) becomes
`е` (U+0435). -/
def yoRepl (c : Char) : Char :=
  if c.toNat = 0x451 then Char.ofNat 0x435 else c

/-- Python `str.isspace` characters (the set stripped by `str.strip()`). -/
def isPySpace (c : Char) : Bool :=
  (9 ≤ c.toNat && c.toNat ≤ 13) || (28 ≤ c.toNat && c.toNat ≤ 31) ||
  c.toNat == 32 || c.toNat == 0x85 || c.toNat == 0xA0 || c.toNat == 0x1680 ||
  (0x2000 ≤ c.toNat && c.toNat ≤ 0x200A) || c.toNat == 0x2028 || c.toNat == 0x2029 ||
  c.toNat == 0x202F || c.toNat == 0x205F || c.toNat == 0x3000

/-- Python `str.strip()`: drop whitespace from both ends. -/
def pyStrip (l : List Char) : List Char :=
  ((l.dropWhile isPySpace).reverse.dropWhile isPySpace).reverse

/-- `normalize_token` (app.py lines 54-60): lower-case, rewrite every `ё` to
`е`, then strip surrounding whitespace. -/
def normalize_token (t : List Char) : List Char :=
  pyStrip ((t.map pyLower).map yoRepl)

/-! ## Quote Extractor (`token_quote`, app.py lines 62-68). -/

/-- Python string slicing `t[a:b]` (step 1): negative indices count from the
end, then both bounds are clamped into `[0, len(t)]`. -/
def pySlice (t : List Char) (a b : Int) : List Char :=
  let n : Int := t.length
  let a2 := min (max (if a < 0 then n + a else a) 0) n
  let b2 := min (max (if b < 0 then n + b else b) 0) n
  (t.drop a2.toNat).take (b2.toNat - a2.toNat)

/-- `token_quote(text, start, end, window)` (app.py lines 62-68):
`left = max(0, start - window)`, `right = min(len(text), end + window)`,
returning `text[left:right]`. -/
def token_quote (text : List Char) (start stop window : Int) : List Char :=
  let left := max 0 (start - window)
  let right := min (text.length : Int) (stop + window)
  pySlice text left right

/-- The Quote Extractor contract exactly as the spec states it (§4.4):
`text[max(0, start-window) : min(len(text), end+window)]`. -/
def quoteSpec (text : List Char) (start stop window : Int) : List Char :=
  pySlice text (max 0 (start - window)) (min (text.length : Int) (stop + window))

/-! ## Character-level facts about the normalizer -/

theorem toNat_ofNat_lt (n : Nat) (h : n < 55296) : (Char.ofNat n).toNat = n := by
  have hv : n.isValidChar := Or.inl h
  rw [Char.ofNat, dif_pos hv]
  rfl

theorem pyLower_toNat (c : Char) :
    (pyLower c).toNat =
      if 65 ≤ c.toNat ∧ c.toNat ≤ 90 then c.toNat + 32
      else if 0x410 ≤ c.toNat ∧ c.toNat ≤ 0x42F then c.toNat + 32
      else if c.toNat = 0x401 then 0x451
      else c.toNat := by
  unfold pyLower
  split_ifs with h1 h2 h3
  · exact toNat_ofNat_lt _ (by omega)
  · exact toNat_ofNat_lt _ (by omega)
  · exact toNat_ofNat_lt _ (by omega)
  · rfl

theorem pyLower_eq_self (d : Char) (h1 : ¬(65 ≤ d.toNat ∧ d.toNat ≤ 90))
    (h2 : ¬(0x410 ≤ d.toNat ∧ d.toNat ≤ 0x42F)) (h3 : ¬(d.toNat = 0x401)) :
    pyLower d = d := by
  unfold pyLower
  simp [h1, h2, h3]

theorem yoRepl_toNat (c : Char) :
    (yoRepl c).toNat = if c.toNat = 0x451 then 0x435 else c.toNat := by
  unfold yoRepl
  split_ifs with h
  · exact toNat_ofNat_lt _ (by omega)
  · rfl

theorem yoRepl_eq_self (c : Char) (h : ¬(c.toNat = 0x451)) : yoRepl c = c := by
  unfold yoRepl
  simp [h]

theorem yoRepl_idem (c : Char) : yoRepl (yoRepl c) = yoRepl c := by
  apply yoRepl_eq_self
  rw [yoRepl_toNat]
  split_ifs <;> omega

/-- The per-character normalization `yoRepl ∘ pyLower` is a projection onto
its image. -/
theorem normChar_fixed (c : Char) :
    yoRepl (pyLower (yoRepl (pyLower c))) = yoRepl (pyLower c) := by
  have h1 : pyLower (yoRepl (pyLower c)) = yoRepl (pyLower c) := by
    apply pyLower_eq_self <;> rw [yoRepl_toNat, pyLower_toNat] <;> split_ifs <;> omega
  rw [h1, yoRepl_idem]

theorem isWordChar_pyLower (c : Char) (h : isWordChar c = true) :
    isWordChar (pyLower c) = true := by
  simp only [isWordChar, Bool.or_eq_true, Bool.and_eq_true, decide_eq_true_eq,
    beq_iff_eq] at h ⊢
  rw [pyLower_toNat]
  split_ifs <;> omega

theorem isWordChar_yoRepl (c : Char) (h : isWordChar c = true) :
    isWordChar (yoRepl c) = true := by
  simp only [isWordChar, Bool.or_eq_true, Bool.and_eq_true, decide_eq_true_eq,
    beq_iff_eq] at h ⊢
  rw [yoRepl_toNat]
  split_ifs <;> omega

theorem wordChar_not_space (c : Char) (h : isWordChar c = true) :
    isPySpace c = false := by
  cases hs : isPySpace c with
  | false => rfl
  | true =>
    exfalso
    simp only [isWordChar, Bool.or_eq_true, Bool.and_eq_true, decide_eq_true_eq,
      beq_iff_eq] at h
    simp only [isPySpace, Bool.or_eq_true, Bool.and_eq_true, decide_eq_true_eq,
      beq_iff_eq] at hs
    omega

/-! ## `pyStrip` facts -/

theorem dropWhile_eq_self_of_all (p : Char → Bool) (l : List Char)
    (h : ∀ c ∈ l, p c = false) : l.dropWhile p = l := by
  cases l with
  | nil => rfl
  | cons c t => simp [List.dropWhile_cons, h c (by simp)]

theorem pyStrip_eq_self_of_all (l : List Char) (h : ∀ c ∈ l, isPySpace c = false) :
    pyStrip l = l := by
  unfold pyStrip
  rw [dropWhile_eq_self_of_all _ _ h, dropWhile_eq_self_of_all, List.reverse_reverse]
  intro c hc
  exact h c (by simpa using hc)

/-- The head of a list (if any) fails the predicate `p`. -/
def headNotP (p : Char → Bool) : List Char → Prop
  | [] => True
  | c :: _ => p c = false

theorem headNotP_dropWhile (p : Char → Bool) (l : List Char) :
    headNotP p (l.dropWhile p) := by
  induction l with
  | nil => trivial
  | cons c t ih =>
    by_cases h : p c = true
    · simpa [List.dropWhile_cons, h] using ih
    · have hf : p c = false := by simpa using h
      simp only [List.dropWhile_cons, hf, if_false, Bool.false_eq_true]
      exact hf

theorem dropWhile_eq_self_of_headNotP (p : Char → Bool) (l : List Char)
    (h : headNotP p l) : l.dropWhile p = l := by
  cases l with
  | nil => rfl
  | cons c t =>
    simp only [headNotP] at h
    simp [List.dropWhile_cons, h]

theorem pyStrip_idem (l : List Char) : pyStrip (pyStrip l) = pyStrip l := by
  have hHA : headNotP isPySpace (l.dropWhile isPySpace) := headNotP_dropWhile _ _
  have hHB2 : headNotP isPySpace ((l.dropWhile isPySpace).reverse.dropWhile isPySpace) :=
    headNotP_dropWhile _ _
  obtain ⟨s, hs⟩ :
      ∃ s, s ++ (l.dropWhile isPySpace).reverse.dropWhile isPySpace =
        (l.dropWhile isPySpace).reverse :=
    List.dropWhile_suffix _
  have hA2 : l.dropWhile isPySpace =
      ((l.dropWhile isPySpace).reverse.dropWhile isPySpace).reverse ++ s.reverse := by
    have h2 := congrArg List.reverse hs
    simpa using h2.symm
  have hHB : headNotP isPySpace
      ((l.dropWhile isPySpace).reverse.dropWhile isPySpace).reverse := by
    rw [hA2] at hHA
    cases hBr : ((l.dropWhile isPySpace).reverse.dropWhile isPySpace).reverse with
    | nil => trivial
    | cons c t =>
      rw [hBr, List.cons_append] at hHA
      simpa only [headNotP] using hHA
  show pyStrip (((l.dropWhile isPySpace).reverse.dropWhile isPySpace).reverse) = _
  unfold pyStrip
  rw [dropWhile_eq_self_of_headNotP _ _ hHB, List.reverse_reverse,
    dropWhile_eq_self_of_headNotP _ _ hHB2]

theorem mem_of_mem_pyStrip (l : List Char) (x : Char) (h : x ∈ pyStrip l) : x ∈ l := by
  unfold pyStrip at h
  rw [List.mem_reverse] at h
  have h2 := (List.dropWhile_sublist _).subset h
  rw [List.mem_reverse] at h2
  exact (List.dropWhile_sublist _).subset h2

/-! ## `normalize_token` facts -/

theorem normalize_idem_chars (l : List Char) :
    ((normalize_token l).map pyLower).map yoRepl = normalize_token l := by
  have hfix : ∀ x ∈ normalize_token l, (yoRepl ∘ pyLower) x = id x := by
    intro x hx
    have hx2 := mem_of_mem_pyStrip _ _ hx
    simp only [List.mem_map] at hx2
    obtain ⟨y, ⟨z, hz, rfl⟩, rfl⟩ := hx2
    exact normChar_fixed z
  rw [List.map_map, List.map_congr_left hfix, List.map_id]

theorem normalize_token_idem (s : List Char) :
    normalize_token (normalize_token s) = normalize_token s := by
  calc normalize_token (normalize_token s)
      = pyStrip (((normalize_token s).map pyLower).map yoRepl) := rfl
    _ = pyStrip (normalize_token s) := by rw [normalize_idem_chars]
    _ = normalize_token s := pyStrip_idem _

theorem normalize_token_length_of_word (l : List Char)
    (h : ∀ c ∈ l, isWordChar c = true) : (normalize_token l).length = l.length := by
  unfold normalize_token
  rw [pyStrip_eq_self_of_all]
  · simp
  · intro c hc
    simp only [List.mem_map] at hc
    obtain ⟨y, ⟨z, hz, rfl⟩, rfl⟩ := hc
    exact wordChar_not_space _ (isWordChar_yoRepl _ (isWordChar_pyLower _ (h z hz)))

theorem normalize_token_ne_nil_of_word (l : List Char) (hne : l ≠ [])
    (h : ∀ c ∈ l, isWordChar c = true) : normalize_token l ≠ [] := by
  intro hcon
  have := normalize_token_length_of_word l h
  rw [hcon] at this
  exact hne (List.eq_nil_of_length_eq_zero this.symm)

/-! ## Word Tokenizer facts -/

theorem takeWhile_eq_take_self (p : Char → Bool) (l : List Char) :
    l.takeWhile p = l.take (l.takeWhile p).length := by
  induction l with
  | nil => rfl
  | cons c t ih =>
    by_cases h : p c = true
    · simp only [List.takeWhile_cons, h, if_true, List.length_cons, List.take_succ_cons]
      exact congrArg (c :: ·) ih
    · simp [List.takeWhile_cons, h]

theorem length_takeWhile_le_self (p : Char → Bool) (l : List Char) :
    (l.takeWhile p).length ≤ l.length := by
  conv_lhs => rw [takeWhile_eq_take_self p l]
  rw [List.length_take]
  omega

theorem tokenizeFrom_mem (cs : List Char) (i : Nat) (t : Token)
    (ht : t ∈ tokenizeFrom cs i) :
    i ≤ t.start ∧ t.stop = t.start + t.text.length ∧ t.text ≠ [] ∧
      (∀ c ∈ t.text, isWordChar c = true) ∧ t.stop ≤ i + cs.length ∧
      t.text = (cs.drop (t.start - i)).take t.text.length := by
  induction cs, i using tokenizeFrom.induct with
  | case1 i => simp [tokenizeFrom] at ht
  | case2 i c rest h ih =>
    rw [tokenizeFrom] at ht
    simp only [if_pos h] at ht
    rcases List.mem_cons.mp ht with rfl | hmem
    · refine ⟨le_refl _, rfl, ?_, ?_, ?_, ?_⟩
      · simp [List.takeWhile_cons, h]
      · intro x hx
        exact List.mem_takeWhile_imp hx
      · simp only [Nat.add_le_add_iff_left]
        exact length_takeWhile_le_self _ _
      · simp only [Nat.sub_self, List.drop_zero]
        exact takeWhile_eq_take_self _ _
    · obtain ⟨h1, h2, h3, h4, h5, h6⟩ := ih hmem
      have hsplit : (c :: rest).takeWhile isWordChar ++ (c :: rest).dropWhile isWordChar =
          c :: rest := List.takeWhile_append_dropWhile isWordChar (c :: rest)
      have hlen : ((c :: rest).takeWhile isWordChar).length +
          ((c :: rest).dropWhile isWordChar).length = (c :: rest).length := by
        rw [← List.length_append, hsplit]
      refine ⟨by omega, h2, h3, h4, by omega, ?_⟩
      have hidx : t.start - i =
          ((c :: rest).takeWhile isWordChar).length +
            (t.start - (i + ((c :: rest).takeWhile isWordChar).length)) := by
        omega
      have hdrop : ((c :: rest).takeWhile isWordChar ++
            (c :: rest).dropWhile isWordChar).drop
            (((c :: rest).takeWhile isWordChar).length +
              (t.start - (i + ((c :: rest).takeWhile isWordChar).length))) =
          ((c :: rest).dropWhile isWordChar).drop
            (t.start - (i + ((c :: rest).takeWhile isWordChar).length)) := by
        rw [List.drop_append]
      rw [hsplit] at hdrop
      rw [hidx, hdrop]
      exact h6
  | case3 i c rest h ih =>
    rw [tokenizeFrom] at ht
    simp only [if_neg h] at ht
    obtain ⟨h1, h2, h3, h4, h5, h6⟩ := ih ht
    refine ⟨by omega, h2, h3, h4, by simp only [List.length_cons]; omega, ?_⟩
    have hidx : t.start - i = (t.start - (i + 1)) + 1 := by omega
    rw [hidx, List.drop_succ_cons]
    exact h6

theorem tokenizeFrom_start_succ_le (c : Char) (rest : List Char) (i : Nat) (t : Token)
    (h : ¬ isWordChar c = true) (ht : t ∈ tokenizeFrom (c :: rest) i) :
    i + 1 ≤ t.start := by
  rw [tokenizeFrom] at ht
  simp only [if_neg h] at ht
  exact (tokenizeFrom_mem _ _ _ ht).1

theorem tokenizeFrom_pairwise (cs : List Char) (i : Nat) :
    (tokenizeFrom cs i).Pairwise (fun a b => a.stop < b.start) := by
  induction cs, i using tokenizeFrom.induct with
  | case1 i => simp [tokenizeFrom]
  | case2 i c rest h ih =>
    rw [tokenizeFrom]
    simp only [if_pos h]
    refine List.Pairwise.cons ?_ ih
    intro u hu
    cases hr : (c :: rest).dropWhile isWordChar with
    | nil =>
      rw [hr] at hu
      simp [tokenizeFrom] at hu
    | cons d tail =>
      have hd : headNotP isWordChar ((c :: rest).dropWhile isWordChar) :=
        headNotP_dropWhile _ _
      rw [hr] at hd hu
      simp only [headNotP] at hd
      have hstart := tokenizeFrom_start_succ_le d tail _ u (by simp [hd]) hu
      show _ + _ < u.start
      omega
  | case3 i c rest h ih =>
    rw [tokenizeFrom]
    simp only [if_neg h]
    exact ih

theorem tokenizeFrom_coverage (cs : List Char) (i : Nat) :
    ∀ j, (hj : j < cs.length) → isWordChar (cs.get ⟨j, hj⟩) = true →
      ∃ t ∈ tokenizeFrom cs i, t.start ≤ i + j ∧ i + j < t.stop := by
  induction cs, i using tokenizeFrom.induct with
  | case1 i =>
    intro j hj hw
    simp at hj
  | case2 i c rest h ih =>
    intro j hj hw
    rw [tokenizeFrom]
    simp only [if_pos h]
    have hsplit : (c :: rest).takeWhile isWordChar ++ (c :: rest).dropWhile isWordChar =
        c :: rest := List.takeWhile_append_dropWhile isWordChar (c :: rest)
    have hlen : ((c :: rest).takeWhile isWordChar).length +
        ((c :: rest).dropWhile isWordChar).length = (c :: rest).length := by
      rw [← List.length_append, hsplit]
    by_cases hlt : j < ((c :: rest).takeWhile isWordChar).length
    · refine ⟨⟨(c :: rest).takeWhile isWordChar, i,
        i + ((c :: rest).takeWhile isWordChar).length⟩, List.mem_cons_self _ _, ?_, ?_⟩
      · show i ≤ i + j
        omega
      · show i + j < i + _
        omega
    · have hj2 : j - ((c :: rest).takeWhile isWordChar).length <
          ((c :: rest).dropWhile isWordChar).length := by omega
      have hw2 : isWordChar (((c :: rest).dropWhile isWordChar).get
          ⟨j - ((c :: rest).takeWhile isWordChar).length, hj2⟩) = true := by
        have hja : j < ((c :: rest).takeWhile isWordChar ++
            (c :: rest).dropWhile isWordChar).length := by
          rw [hsplit]
          exact hj
        have e1 : (c :: rest).get ⟨j, hj⟩ = ((c :: rest).takeWhile isWordChar ++
            (c :: rest).dropWhile isWordChar).get ⟨j, hja⟩ := by
          simp only [List.get_eq_getElem]
          exact List.getElem_of_eq hsplit.symm hj
        have e2 : ((c :: rest).takeWhile isWordChar ++
            (c :: rest).dropWhile isWordChar).get ⟨j, hja⟩ =
            ((c :: rest).dropWhile isWordChar).get
              ⟨j - ((c :: rest).takeWhile isWordChar).length, hj2⟩ := by
          simp only [List.get_eq_getElem]
          rw [List.getElem_append_right]
          all_goals omega
        rw [← e2, ← e1]
        exact hw
      obtain ⟨t, htm, h1, h2⟩ := ih _ hj2 hw2
      refine ⟨t, List.mem_cons_of_mem _ htm, by omega, by omega⟩
  | case3 i c rest h ih =>
    intro j hj hw
    rw [tokenizeFrom]
    simp only [if_neg h]
    cases j with
    | zero =>
      exact absurd (by simpa using hw) h
    | succ k =>
      obtain ⟨t, htm, h1, h2⟩ := ih k (by simpa using hj) (by simpa using hw)
      exact ⟨t, htm, by omega, by omega⟩

theorem tokenize_boundary (cs : List Char) (t : Token) (ht : t ∈ tokenize cs) :
    (∀ hp : t.start - 1 < cs.length, 0 < t.start →
      ¬ isWordChar (cs.get ⟨t.start - 1, hp⟩) = true) ∧
    (∀ hs : t.stop < cs.length, ¬ isWordChar (cs.get ⟨t.stop, hs⟩) = true) := by
  obtain ⟨m, hm, hmt⟩ := List.mem_iff_getElem.mp ht
  have hpw : (tokenize cs).Pairwise (fun a b => a.stop < b.start) :=
    tokenizeFrom_pairwise cs 0
  have hmem := tokenizeFrom_mem cs 0 t ht
  have hlen : 0 < t.text.length := List.length_pos.mpr hmem.2.2.1
  constructor
  · intro hp h0 hwc
    obtain ⟨u, hu, hu1, hu2⟩ := tokenizeFrom_coverage cs 0 (t.start - 1) hp hwc
    simp only [Nat.zero_add] at hu1 hu2
    replace hu : u ∈ tokenize cs := hu
    obtain ⟨n, hn, hnu⟩ := List.mem_iff_getElem.mp hu
    have hmemu := tokenizeFrom_mem cs 0 u hu
    rcases Nat.lt_trichotomy m n with hlt | heq | hgt
    · have hR := List.pairwise_iff_getElem.mp hpw m n hm hn hlt
      rw [hmt, hnu] at hR
      omega
    · subst heq
      have htu : t = u := hmt.symm.trans hnu
      rw [← htu] at hu1
      omega
    · have hR := List.pairwise_iff_getElem.mp hpw n m hn hm hgt
      rw [hmt, hnu] at hR
      omega
  · intro hs hwc
    obtain ⟨u, hu, hu1, hu2⟩ := tokenizeFrom_coverage cs 0 t.stop hs hwc
    simp only [Nat.zero_add] at hu1 hu2
    replace hu : u ∈ tokenize cs := hu
    obtain ⟨n, hn, hnu⟩ := List.mem_iff_getElem.mp hu
    have hmemu := tokenizeFrom_mem cs 0 u hu
    rcases Nat.lt_trichotomy m n with hlt | heq | hgt
    · have hR := List.pairwise_iff_getElem.mp hpw m n hm hn hlt
      rw [hmt, hnu] at hR
      omega
    · subst heq
      have htu : t = u := hmt.symm.trans hnu
      rw [← htu] at hu2
      omega
    · have hR := List.pairwise_iff_getElem.mp hpw n m hn hm hgt
      rw [hmt, hnu] at hR
      omega

/-- C1: for every input string the Word Tokenizer emits exactly the maximal
runs of Latin letters, Cyrillic letters, or digits, in left-to-right order:
every emitted token is a non-empty run of word characters equal to the source
substring at its half-open offsets (`text == source[start:end]`), offsets are
ascending and non-overlapping, every word-character position of the source is
covered by an emitted token (separators are never emitted, and nothing is
missed), and each token is maximal (the characters adjacent to it, when they
exist, are separators). -/
theorem c1_tokenizer (cs : List Char) :
    (∀ t ∈ tokenize cs, t.text ≠ [] ∧ (∀ c ∈ t.text, isWordChar c = true) ∧
      t.stop = t.start + t.text.length ∧ t.stop ≤ cs.length ∧
      t.text = (cs.drop t.start).take t.text.length) ∧
    (tokenize cs).Pairwise (fun a b => a.stop < b.start) ∧
    (∀ j, (hj : j < cs.length) → isWordChar (cs.get ⟨j, hj⟩) = true →
      ∃ t ∈ tokenize cs, t.start ≤ j ∧ j < t.stop) ∧
    (∀ t ∈ tokenize cs,
      (∀ hp : t.start - 1 < cs.length, 0 < t.start →
        ¬ isWordChar (cs.get ⟨t.start - 1, hp⟩) = true) ∧
      (∀ hs : t.stop < cs.length, ¬ isWordChar (cs.get ⟨t.stop, hs⟩) = true)) := by
  refine ⟨?_, tokenizeFrom_pairwise cs 0, ?_, fun t ht => tokenize_boundary cs t ht⟩
  · intro t ht
    obtain ⟨h1, h2, h3, h4, h5, h6⟩ := tokenizeFrom_mem cs 0 t ht
    rw [Nat.zero_add] at h5
    rw [Nat.sub_zero] at h6
    exact ⟨h3, h4, h2, h5, h6⟩
  · intro j hj hw
    obtain ⟨t, htm, h1, h2⟩ := tokenizeFrom_coverage cs 0 j hj hw
    exact ⟨t, htm, by omega, by omega⟩

/-- Witness for C1 at the concrete input `"aб1 x"`: position 0 holds a word
character, so some emitted token covers it. -/
theorem c1_tokenizer_witness :
    ∃ t ∈ tokenize (str "aб1 x"), t.start ≤ 0 ∧ 0 < t.stop :=
  (c1_tokenizer (str "aб1 x")).2.2.1 0 (by decide) (by decide)

/-- C9: the Token Normalizer is the pure total function lower-casing, then
rewriting every `ё` to `е`, then trimming surrounding whitespace, and it is
idempotent: `normalize(normalize(s)) = normalize(s)` for every string. -/
theorem c9_normalize_token_idempotent (s : List Char) :
    normalize_token (normalize_token s) = normalize_token s ∧
    normalize_token s = pyStrip ((s.map pyLower).map yoRepl) :=
  ⟨normalize_token_idem s, rfl⟩

/-! ## Quote Extractor facts -/

/-- C7: the Quote Extractor returns exactly
`text[max(0, start-window) : min(len(text), end+window)]`; for valid inputs
(`0 ≤ start ≤ end ≤ len(text)`, `window ≥ 0`) the result has length at most
`(end - start) + 2*window`, is a contiguous substring of `text`, and with
`window = 0` it equals `text[start:end]`. -/
theorem c7_token_quote (text : List Char) (start stop window : Int)
    (h0 : 0 ≤ start) (h1 : start ≤ stop) (h2 : stop ≤ (text.length : Int))
    (h3 : 0 ≤ window) :
    token_quote text start stop window = quoteSpec text start stop window ∧
    (token_quote text start stop window).length ≤ ((stop - start) + 2 * window).toNat ∧
    (token_quote text start stop window) <:+: text ∧
    (window = 0 → token_quote text start stop window = pySlice text start stop) := by
  have hL0 : (0 : Int) ≤ max 0 (start - window) := le_max_left _ _
  have hL1 : start - window ≤ max 0 (start - window) := le_max_right _ _
  have hLlen : max 0 (start - window) ≤ (text.length : Int) := by
    apply max_le
    · exact Int.ofNat_nonneg _
    · omega
  have hR0 : (0 : Int) ≤ min (text.length : Int) (stop + window) := by
    apply le_min
    · exact Int.ofNat_nonneg _
    · omega
  have hR1 : min (text.length : Int) (stop + window) ≤ stop + window := min_le_right _ _
  have hRlen : min (text.length : Int) (stop + window) ≤ (text.length : Int) :=
    min_le_left _ _
  have hform : token_quote text start stop window =
      (text.drop (max 0 (start - window)).toNat).take
        ((min (text.length : Int) (stop + window)).toNat -
          (max 0 (start - window)).toNat) := by
    simp only [token_quote, pySlice]
    rw [if_neg (not_lt.mpr hL0), if_neg (not_lt.mpr hR0), max_eq_left hL0,
      max_eq_left hR0, min_eq_left hLlen, min_eq_left hRlen]
  refine ⟨rfl, ?_, ?_, ?_⟩
  · rw [hform, List.length_take, List.length_drop]
    omega
  · rw [hform]
    refine ⟨text.take (max 0 (start - window)).toNat,
      (text.drop (max 0 (start - window)).toNat).drop
        ((min (text.length : Int) (stop + window)).toNat -
          (max 0 (start - window)).toNat), ?_⟩
    rw [List.append_assoc, List.take_append_drop, List.take_append_drop]
  · intro hw0
    subst hw0
    show pySlice text (max 0 (start - 0)) (min (text.length : Int) (stop + 0)) = _
    rw [sub_zero, add_zero, max_eq_right h0, min_eq_right h2]

/-- Witness for C7 at `text = "abcde"`, `start = 1`, `stop = 3`, `window = 1`. -/
theorem c7_token_quote_witness :
    (token_quote (str "abcde") 1 3 1).length ≤ ((3 - 1) + 2 * 1 : Int).toNat :=
  (c7_token_quote (str "abcde") 1 3 1 (by decide) (by decide) (by decide)
    (by decide)).2.1

/-! ## Lemma Resolver (`/lemmatize` and `/lemmatize_text`, app.py lines 75-130)

The external analyzer `morph.parse` is an oracle returning, for a normalized
word, the `normal_form` of each parse candidate in the analyzer's own ranked
order.  The code only evaluates `morph.parse(t)[0].normal_form` inside a
`try`: an exception raised by `parse`, and an empty candidate list (which
makes `[0]` raise `IndexError`), are observationally identical there, so both
are represented by the empty candidate list. -/

def Morph : Type := List Char → List (List Char)

/-- Request body of `POST /lemmatize` (app.py lines 14-15). -/
structure LemmaRequestBody where
  tokens : List (List Char)

/-- Request body of `POST /lemmatize_text` (app.py lines 20-22). -/
structure LemmaTextRequestBody where
  text : List Char
  window : Int

/-- One item of the `/lemmatize_text` response (app.py lines 122-128);
`lemmaForm` models the `lemma` field, `none` standing for JSON `null`. -/
structure LemmaItem where
  token : List Char
  lemmaForm : Option (List Char)
  start : Nat
  stop : Nat
  quote : List Char
deriving DecidableEq, Repr

/-- `lemmatize_text` (app.py lines 95-130): for each regex match, normalize
it, skip it if the normalization is empty (the `if not t: continue`), try the
analyzer (failure gives `lemma = None`, the record is kept), and emit the
record with offsets and quote. -/
def lemmatize_text (morph : Morph) (text : List Char) (window : Int) :
    List LemmaItem :=
  (tokenize text).filterMap (fun tk =>
    if normalize_token tk.text = [] then none
    else some ⟨tk.text, (morph (normalize_token tk.text)).head?, tk.start, tk.stop,
      token_quote text (tk.start : Int) (tk.stop : Int) window⟩)

/-- Python dict assignment `result[token] = v` on an insertion-ordered
dictionary: overwrite in place if the key is present, else append. -/
def dictInsert (m : List (List Char × List Char)) (k v : List Char) :
    List (List Char × List Char) :=
  if m.any (fun p => p.1 == k) then
    m.map (fun p => if p.1 == k then (k, v) else p)
  else m ++ [(k, v)]

/-- Python dict lookup `m[k]` (as an `Option`). -/
def dictGet (m : List (List Char × List Char)) (k : List Char) :
    Option (List Char) :=
  (m.find? (fun p => p.1 == k)).map Prod.snd

/-- One iteration of the `for token in data.tokens` loop of `lemmatize`
(app.py lines 82-91): skip when the normalization is empty, skip when the
analyzer fails (the `except ... continue`), else write the first candidate's
normal form under the original token string. -/
def lemmaStep (morph : Morph) (result : List (List Char × List Char))
    (token : List Char) : List (List Char × List Char) :=
  if normalize_token token = [] then result
  else
    match (morph (normalize_token token)).head? with
    | none => result
    | some nf => dictInsert result token nf

/-- `lemmatize` (app.py lines 75-92): fold the loop over the token list,
starting from the empty dict. -/
def lemmatize (morph : Morph) (tokens : List (List Char)) :
    List (List Char × List Char) :=
  tokens.foldl (lemmaStep morph) []

/-! ## Full-text mode: C2 -/

theorem filterMap_eq_map_of_forall {α β : Type} (f : α → Option β) (g : α → β)
    (l : List α) (h : ∀ x ∈ l, f x = some (g x)) : l.filterMap f = l.map g := by
  induction l with
  | nil => rfl
  | cons a t ih =>
    simp only [List.filterMap_cons, h a (List.mem_cons_self a t), List.map_cons]
    rw [ih (fun x hx => h x (List.mem_cons_of_mem a hx))]

theorem tokenize_normalize_ne_nil (text : List Char) (tk : Token)
    (htk : tk ∈ tokenize text) : normalize_token tk.text ≠ [] := by
  obtain ⟨-, -, h3, h4, -, -⟩ := tokenizeFrom_mem text 0 tk htk
  exact normalize_token_ne_nil_of_word _ h3 h4

/-- C2: in full-text mode the output is exactly one record per
tokenizer-emitted token occurrence, in order (duplicates all retained with
their own offsets and quote); an analyzer failure on a token yields
`lemma = none` for that record, not omission, and the remaining tokens are
still processed (the output is a pointwise map over the token sequence, for
every analyzer oracle including ones that fail on every token). -/
theorem c2_full_text_mode (morph : Morph) (text : List Char) (window : Int) :
    lemmatize_text morph text window = (tokenize text).map (fun tk =>
      ⟨tk.text, (morph (normalize_token tk.text)).head?, tk.start, tk.stop,
        token_quote text (tk.start : Int) (tk.stop : Int) window⟩) ∧
    (lemmatize_text morph text window).length = (tokenize text).length := by
  have heq : lemmatize_text morph text window = (tokenize text).map (fun tk =>
      ⟨tk.text, (morph (normalize_token tk.text)).head?, tk.start, tk.stop,
        token_quote text (tk.start : Int) (tk.stop : Int) window⟩) := by
    unfold lemmatize_text
    apply filterMap_eq_map_of_forall
    intro tk htk
    rw [if_neg (tokenize_normalize_ne_nil text tk htk)]
  exact ⟨heq, by rw [heq, List.length_map]⟩

/-! ## Token-list mode: dict lemmas -/

theorem find?_map_upd (m : List (List Char × List Char)) (k v : List Char)
    (hm : m.any (fun p => p.1 == k) = true) :
    ((m.map (fun p => if p.1 == k then (k, v) else p)).find?
      (fun p => p.1 == k)) = some (k, v) := by
  induction m with
  | nil => simp at hm
  | cons p t ih =>
    by_cases hpk : (p.1 == k) = true
    · simp only [List.map_cons, if_pos hpk]
      exact List.find?_cons_of_pos _ (by simp)
    · have hpkf : (p.1 == k) = false := by simpa using hpk
      simp only [List.any_cons, hpkf, Bool.false_or] at hm
      simp only [List.map_cons, if_neg hpk]
      rw [@List.find?_cons_of_neg _ (fun q => q.1 == k) p
          (List.map (fun q => if q.1 == k then (k, v) else q) t) hpk, ih hm]

theorem dictGet_insert_self (m : List (List Char × List Char)) (k v : List Char) :
    dictGet (dictInsert m k v) k = some v := by
  unfold dictInsert dictGet
  by_cases hm : m.any (fun p => p.1 == k) = true
  · rw [if_pos hm, find?_map_upd m k v hm]
    rfl
  · rw [if_neg hm, List.find?_append]
    have hnone : m.find? (fun p => p.1 == k) = none := by
      rw [List.find?_eq_none]
      intro p hp hpk
      exact hm (List.any_eq_true.mpr ⟨p, hp, hpk⟩)
    rw [hnone]
    simp

theorem find?_map_upd_ne (m : List (List Char × List Char)) (k v k' : List Char)
    (hne : ¬ k' = k) :
    (m.map (fun p => if p.1 == k then (k, v) else p)).find? (fun p => p.1 == k') =
      m.find? (fun p => p.1 == k') := by
  induction m with
  | nil => rfl
  | cons p t ih =>
    by_cases hpk : (p.1 == k) = true
    · have hp1 : p.1 = k := by simpa using hpk
      have hx1 : ¬ (((k, v) : List Char × List Char).1 == k') = true := by
        simp only [beq_iff_eq]
        exact fun h => hne h.symm
      have hx2 : ¬ (p.1 == k') = true := by
        simp only [beq_iff_eq, hp1]
        exact fun h => hne h.symm
      simp only [List.map_cons, if_pos hpk]
      rw [@List.find?_cons_of_neg _ (fun q => q.1 == k') (k, v)
          (List.map (fun q => if q.1 == k then (k, v) else q) t) hx1,
        @List.find?_cons_of_neg _ (fun q => q.1 == k') p t hx2, ih]
    · simp only [List.map_cons, if_neg hpk]
      by_cases hpk' : (p.1 == k') = true
      · rw [@List.find?_cons_of_pos _ (fun q => q.1 == k') p
            (List.map (fun q => if q.1 == k then (k, v) else q) t) hpk',
          @List.find?_cons_of_pos _ (fun q => q.1 == k') p t hpk']
      · rw [@List.find?_cons_of_neg _ (fun q => q.1 == k') p
            (List.map (fun q => if q.1 == k then (k, v) else q) t) hpk',
          @List.find?_cons_of_neg _ (fun q => q.1 == k') p t hpk', ih]

theorem dictGet_insert_ne (m : List (List Char × List Char)) (k v k' : List Char)
    (hne : ¬ k' = k) : dictGet (dictInsert m k v) k' = dictGet m k' := by
  unfold dictInsert dictGet
  by_cases hm : m.any (fun p => p.1 == k) = true
  · rw [if_pos hm, find?_map_upd_ne m k v k' hne]
  · rw [if_neg hm, List.find?_append]
    have hlast : ([((k : List Char), v)].find? (fun p => p.1 == k')) = none := by
      rw [List.find?_eq_none]
      intro x hx
      simp only [List.mem_singleton] at hx
      subst hx
      simp only [beq_iff_eq]
      exact fun h => hne h.symm
    rw [hlast]
    cases m.find? (fun p => p.1 == k') <;> rfl

theorem mem_dictInsert (m : List (List Char × List Char)) (k v : List Char)
    (p : List Char × List Char) (hp : p ∈ dictInsert m k v) :
    p ∈ m ∨ p = (k, v) := by
  unfold dictInsert at hp
  split_ifs at hp with hm
  · obtain ⟨q, hq, hqe⟩ := List.mem_map.mp hp
    by_cases hqk : (q.1 == k) = true
    · right
      rw [← hqe, if_pos hqk]
    · left
      rw [← hqe, if_neg hqk]
      exact hq
  · rcases List.mem_append.mp hp with h | h
    · left
      exact h
    · right
      simpa using h

theorem dictInsert_keys_nodup (m : List (List Char × List Char)) (k v : List Char)
    (h : (m.map Prod.fst).Nodup) : ((dictInsert m k v).map Prod.fst).Nodup := by
  unfold dictInsert
  split_ifs with hm
  · have hkeys : (m.map (fun p => if p.1 == k then (k, v) else p)).map Prod.fst =
        m.map Prod.fst := by
      rw [List.map_map]
      apply List.map_congr_left
      intro p hp
      by_cases hpk : (p.1 == k) = true
      · simp only [Function.comp_apply, hpk, if_true]
        have : p.1 = k := by simpa using hpk
        simp [this]
      · have hpkP : ¬ p.1 = k := by simpa using hpk
        simp [Function.comp_apply, hpkP]
    rw [hkeys]
    exact h
  · rw [List.map_append]
    apply List.Nodup.append h (by simp)
    intro a ha hb
    simp only [List.map_cons, List.map_nil, List.mem_singleton] at hb
    subst hb
    obtain ⟨q, hq, hq1⟩ := List.mem_map.mp ha
    exact hm (List.any_eq_true.mpr ⟨q, hq, by simp [hq1]⟩)

/-! ## Token-list mode: loop characterization -/

theorem lemmatize_loop_get (morph : Morph) (tokens : List (List Char))
    (acc : List (List Char × List Char)) (k : List Char) :
    dictGet (tokens.foldl (lemmaStep morph) acc) k =
      if k ∈ tokens ∧ normalize_token k ≠ [] ∧ morph (normalize_token k) ≠ []
      then (morph (normalize_token k)).head?
      else dictGet acc k := by
  induction tokens generalizing acc with
  | nil => simp
  | cons a t ih =>
    rw [List.foldl_cons, ih]
    by_cases hmem : k ∈ t ∧ normalize_token k ≠ [] ∧ morph (normalize_token k) ≠ []
    · rw [if_pos hmem, if_pos ⟨List.mem_cons_of_mem a hmem.1, hmem.2⟩]
    · rw [if_neg hmem]
      by_cases hka : k = a
      · subst hka
        by_cases hn : normalize_token k = []
        · rw [if_neg (by tauto)]
          simp [lemmaStep, hn]
        · cases hh : (morph (normalize_token k)).head? with
          | none =>
            have hmor : morph (normalize_token k) = [] := by
              cases hmm : morph (normalize_token k) with
              | nil => rfl
              | cons x xs =>
                rw [hmm] at hh
                simp at hh
            rw [if_neg (by tauto)]
            simp only [lemmaStep, if_neg hn, hh]
          | some nf =>
            have hmor : morph (normalize_token k) ≠ [] := by
              intro hc
              rw [hc] at hh
              simp at hh
            rw [if_pos ⟨List.mem_cons_self _ _, hn, hmor⟩]
            simp only [lemmaStep, if_neg hn, hh]
            rw [dictGet_insert_self]
      · rw [if_neg (by rw [List.mem_cons]; tauto)]
        unfold lemmaStep
        split_ifs with hna
        · rfl
        · cases hh : (morph (normalize_token a)).head? with
          | none => simp only [hh]
          | some nf =>
            simp only [hh]
            exact dictGet_insert_ne acc a nf k hka

theorem lemmatize_get (morph : Morph) (tokens : List (List Char)) (k : List Char) :
    dictGet (lemmatize morph tokens) k =
      if k ∈ tokens ∧ normalize_token k ≠ [] ∧ morph (normalize_token k) ≠ []
      then (morph (normalize_token k)).head? else none := by
  unfold lemmatize
  rw [lemmatize_loop_get]
  split_ifs <;> rfl

theorem lemmatize_loop_mem (morph : Morph) (tokens : List (List Char))
    (acc : List (List Char × List Char)) (p : List Char × List Char)
    (hp : p ∈ tokens.foldl (lemmaStep morph) acc) : p ∈ acc ∨ p.1 ∈ tokens := by
  induction tokens generalizing acc with
  | nil => exact Or.inl hp
  | cons a t ih =>
    rw [List.foldl_cons] at hp
    rcases ih _ hp with hin | hmem
    · unfold lemmaStep at hin
      split_ifs at hin with hn
      · exact Or.inl hin
      · cases hh : (morph (normalize_token a)).head? with
        | none =>
          simp only [hh] at hin
          exact Or.inl hin
        | some nf =>
          simp only [hh] at hin
          rcases mem_dictInsert acc a nf p hin with h | h
          · exact Or.inl h
          · right
            rw [h]
            exact List.mem_cons_self _ _
    · right
      exact List.mem_cons_of_mem _ hmem

theorem lemmatize_loop_val (morph : Morph) (tokens : List (List Char))
    (acc : List (List Char × List Char))
    (hacc : ∀ p ∈ acc, (morph (normalize_token p.1)).head? = some p.2) :
    ∀ p ∈ tokens.foldl (lemmaStep morph) acc,
      (morph (normalize_token p.1)).head? = some p.2 := by
  induction tokens generalizing acc with
  | nil => exact hacc
  | cons a t ih =>
    rw [List.foldl_cons]
    apply ih
    intro p hp
    unfold lemmaStep at hp
    split_ifs at hp with hn
    · exact hacc p hp
    · cases hh : (morph (normalize_token a)).head? with
      | none =>
        simp only [hh] at hp
        exact hacc p hp
      | some nf =>
        simp only [hh] at hp
        rcases mem_dictInsert acc a nf p hp with h | h
        · exact hacc p h
        · rw [h]
          exact hh

theorem lemmatize_loop_nodup (morph : Morph) (tokens : List (List Char))
    (acc : List (List Char × List Char)) (hacc : (acc.map Prod.fst).Nodup) :
    ((tokens.foldl (lemmaStep morph) acc).map Prod.fst).Nodup := by
  induction tokens generalizing acc with
  | nil => exact hacc
  | cons a t ih =>
    rw [List.foldl_cons]
    apply ih
    unfold lemmaStep
    split_ifs with hn
    · exact hacc
    · cases hh : (morph (normalize_token a)).head? with
      | none =>
        simp only [hh]
        exact hacc
      | some nf =>
        simp only [hh]
        exact dictInsert_keys_nodup acc a nf hacc

/-- A concrete analyzer oracle for witnesses: it knows only the normalized
word `кошки`, whose single candidate normal form is `кошка`. -/
def morphKoshki : Morph := fun t => if t = str "кошки" then [str "кошка"] else []

/-- C3: token-list mode returns a mapping keyed by the original
(un-normalized) token strings; each resolvable token maps to the
`normal_form` of the first candidate in the analyzer's own ranked order for
its normalized form; repeated occurrences of the same original string
overwrite in place, leaving a single binding per key (the key list is
duplicate-free); and `["Кошки", "кошки"]` yields both keys in their original
casing, both mapped to the same lemma. -/
theorem c3_token_list_mode (morph : Morph) (tokens : List (List Char))
    (k : List Char) :
    (dictGet (lemmatize morph tokens) k =
      if k ∈ tokens ∧ normalize_token k ≠ [] ∧ morph (normalize_token k) ≠ []
      then (morph (normalize_token k)).head? else none) ∧
    ((lemmatize morph tokens).map Prod.fst).Nodup ∧
    (∀ l ls, morph (str "кошки") = l :: ls →
      dictGet (lemmatize morph [str "Кошки", str "кошки"]) (str "Кошки") = some l ∧
      dictGet (lemmatize morph [str "Кошки", str "кошки"]) (str "кошки") = some l) := by
  refine ⟨lemmatize_get morph tokens k,
    lemmatize_loop_nodup morph tokens [] (by simp), ?_⟩
  intro l ls hl
  have hn1 : normalize_token (str "Кошки") = str "кошки" := by decide
  have hn2 : normalize_token (str "кошки") = str "кошки" := by decide
  constructor
  · rw [lemmatize_get,
      if_pos ⟨List.mem_cons_self _ _, by rw [hn1]; decide, by rw [hn1, hl]; simp⟩,
      hn1, hl]
    rfl
  · rw [lemmatize_get,
      if_pos ⟨by simp, by rw [hn2]; decide, by rw [hn2, hl]; simp⟩, hn2, hl]
    rfl

/-- Witness for C3: with the concrete oracle `morphKoshki`, resolving
`["Кошки", "кошки"]` yields both original-cased keys mapped to `кошка`. -/
theorem c3_token_list_mode_witness :
    dictGet (lemmatize morphKoshki [str "Кошки", str "кошки"]) (str "Кошки") =
      some (str "кошка") ∧
    dictGet (lemmatize morphKoshki [str "Кошки", str "кошки"]) (str "кошки") =
      some (str "кошка") :=
  (c3_token_list_mode morphKoshki [str "Кошки", str "кошки"] []).2.2
    (str "кошка") [] (by decide)

/-- C10: in token-list mode the returned mapping's keys all come from the
input token list and no key is bound to a null value: every entry's value is
the first candidate of the analyzer for its key's normalization, and a token
whose normalization is empty or whose analyzer candidate list is empty is
omitted from the mapping entirely. -/
theorem c10_token_list_omission (morph : Morph) (tokens : List (List Char))
    (k : List Char) :
    (∀ p ∈ lemmatize morph tokens, p.1 ∈ tokens) ∧
    (∀ p ∈ lemmatize morph tokens, (morph (normalize_token p.1)).head? = some p.2) ∧
    (normalize_token k = [] ∨ morph (normalize_token k) = [] →
      dictGet (lemmatize morph tokens) k = none) := by
  refine ⟨?_, lemmatize_loop_val morph tokens [] (by simp), ?_⟩
  · intro p hp
    rcases lemmatize_loop_mem morph tokens [] p hp with h | h
    · simp at h
    · exact h
  · intro hbad
    rw [lemmatize_get, if_neg]
    tauto

/-- Witness for C10: the token `и` is unknown to `morphKoshki`, so it is
omitted from the mapping (no `null` value). -/
theorem c10_token_list_omission_witness :
    dictGet (lemmatize morphKoshki [str "и"]) (str "и") = none :=
  (c10_token_list_omission morphKoshki [str "и"] (str "и")).2.2 (Or.inr (by decide))

/-! ## Model Lifecycle Manager (`get_ner`, app.py lines 29-45) -/

/-- A Python exception, reduced to its category (`type(e).__name__`) and its
message (`str(e)`). -/
structure PyErr where
  category : List Char
  message : List Char
deriving DecidableEq, Repr

/-- A `fastapi.HTTPException`. -/
structure HTTPExc where
  status : Nat
  detail : List Char
deriving DecidableEq, Repr

/-- The outcome of each construction step of one `get_ner` attempt: the
`natasha` import and the four model constructors, each of which either
returns a handle (an opaque id) or raises. -/
structure Ctors where
  imp : Except PyErr Unit
  seg : Except PyErr Nat
  emb : Except PyErr Nat
  tagger : Except PyErr Nat
  vocab : Except PyErr Nat

/-- The module-level globals `_segmenter`, `_emb`, `_ner_tagger`, `_vocab`
(app.py lines 29-32), all initially `None`. -/
structure NerState where
  segmenter : Option Nat
  emb : Option Nat
  tagger : Option Nat
  vocab : Option Nat
deriving DecidableEq, Repr

/-- The state at process start: all four globals are `None`. -/
def initialNerState : NerState := ⟨none, none, none, none⟩

/-- The detail string raised by `get_ner`:
`f"NER init failed: {type(e).__name__}: {e}"` (app.py line 44). -/
def initDetail (e : PyErr) : List Char :=
  str "NER init failed: " ++ e.category ++ str ": " ++ e.message

/-- `get_ner` (app.py lines 34-45): if `_ner_tagger` is not `None`, return
the stored triple `(_segmenter, _ner_tagger, _vocab)` unchanged; otherwise
load the `natasha` module and run the four constructors in source order,
assigning each global as its constructor returns, wrapping the first
exception as a 500 `HTTPException`.  The result carries the returned value
(or the raised exception), the new global state, and the number of model
constructors invoked during the call. -/
def get_ner (c : Ctors) (s : NerState) :
    Except HTTPExc (Option Nat × Nat × Option Nat) × NerState × Nat :=
  match s.tagger with
  | some tg => (.ok (s.segmenter, tg, s.vocab), s, 0)
  | none =>
    match c.imp with
    | .error e => (.error ⟨500, initDetail e⟩, s, 0)
    | .ok _ =>
      match c.seg with
      | .error e => (.error ⟨500, initDetail e⟩, s, 1)
      | .ok sg =>
        match c.emb with
        | .error e => (.error ⟨500, initDetail e⟩, { s with segmenter := some sg }, 2)
        | .ok em =>
          match c.tagger with
          | .error e =>
            (.error ⟨500, initDetail e⟩,
              { s with segmenter := some sg, emb := some em }, 3)
          | .ok tg =>
            match c.vocab with
            | .error e =>
              (.error ⟨500, initDetail e⟩,
                { s with segmenter := some sg, emb := some em, tagger := some tg }, 4)
            | .ok vb =>
              (.ok (some sg, tg, some vb), ⟨some sg, some em, some tg, some vb⟩, 4)

/-- A sequence of `get_ner` calls (one per incoming request): the final
global state and the total number of constructor invocations. -/
def runGetNer : List Ctors → NerState → NerState × Nat
  | [], s => (s, 0)
  | c :: rest, s =>
    ((runGetNer rest (get_ner c s).2.1).1,
      (get_ner c s).2.2 + (runGetNer rest (get_ner c s).2.1).2)

theorem get_ner_ok_tagger (c : Ctors) (s : NerState)
    (r : Option Nat × Nat × Option Nat) (s1 : NerState) (k : Nat)
    (h0 : s.tagger = none) (h : get_ner c s = (.ok r, s1, k)) :
    ∃ tg, s1.tagger = some tg := by
  rcases s with ⟨sseg, semb, stag, svoc⟩
  dsimp only at h0
  subst h0
  simp only [get_ner] at h
  repeat' split at h
  all_goals
    (injection h with ha hb
     first
       | exact Except.noConfusion ha
       | (injection hb with hb1 hb2
          rw [← hb1]
          exact ⟨_, rfl⟩))

/-- C4: once a tagger handle exists, a `get_ner` call returns the stored
handles, leaves the state unchanged and invokes zero model constructors;
consequently any sequence of further calls leaves the state unchanged with
zero constructor invocations in total; and a successful construction from
the Uninitialized state always leaves a tagger handle in place — so the
handle is built at most once per process and reused unchanged for the rest
of the process's life. -/
theorem c4_lifecycle_idempotent (c : Ctors) (s : NerState) (tg : Nat)
    (h : s.tagger = some tg) :
    (get_ner c s = (.ok (s.segmenter, tg, s.vocab), s, 0) ∧
      ∀ cs : List Ctors, runGetNer cs s = (s, 0)) ∧
    (∀ (c0 : Ctors) (s0 : NerState) r s1 k, s0.tagger = none →
      get_ner c0 s0 = (.ok r, s1, k) → ∃ tg2, s1.tagger = some tg2) := by
  refine ⟨?_, fun c0 s0 r s1 k h0 hok => get_ner_ok_tagger c0 s0 r s1 k h0 hok⟩
  have hone : ∀ c2 : Ctors, get_ner c2 s = (.ok (s.segmenter, tg, s.vocab), s, 0) := by
    intro c2
    unfold get_ner
    rw [h]
  refine ⟨hone c, ?_⟩
  intro cs
  induction cs with
  | nil => rfl
  | cons c2 rest ih =>
    unfold runGetNer
    rw [hone c2]
    simp [ih]

/-- Constructor outcomes with every step healthy. -/
def ctorsAllOk : Ctors := ⟨.ok (), .ok 1, .ok 2, .ok 3, .ok 4⟩

/-- A fully-built state. -/
def readyState : NerState := ⟨some 1, some 2, some 3, some 4⟩

/-- Witness for C4 on a concrete Ready state: a call returns the cached
handles with zero constructions, two further calls construct nothing, and a
successful construction from the fresh state leaves a tagger in place. -/
theorem c4_lifecycle_idempotent_witness :
    get_ner ctorsAllOk readyState = (.ok (some 1, 3, some 4), readyState, 0) ∧
    runGetNer [ctorsAllOk, ctorsAllOk] readyState = (readyState, 0) ∧
    ∃ tg2, (readyState.tagger = some tg2) :=
  ⟨(c4_lifecycle_idempotent ctorsAllOk readyState 3 rfl).1.1,
    (c4_lifecycle_idempotent ctorsAllOk readyState 3 rfl).1.2 [ctorsAllOk, ctorsAllOk],
    (c4_lifecycle_idempotent ctorsAllOk readyState 3 rfl).2 ctorsAllOk initialNerState
      (some 1, 3, some 4) readyState 4 rfl rfl⟩

/-- Constructor outcomes in which the vocabulary constructor raises. -/
def ctorsVocabFail : Ctors :=
  ⟨.ok (), .ok 1, .ok 2, .ok 3, .error ⟨str "RuntimeError", str "model file missing"⟩⟩

/-- C5 is violated by the code at the vocabulary step: the current caller
does get the 500 `NER init failed` error, but `_ner_tagger` has already been
assigned before `_vocab = MorphVocab()` raised, so the manager does not stay
Uninitialized — a subsequent request, even with every constructor healthy,
invokes zero constructors (no retry) and returns the half-built handle with
`_vocab = None`. -/
theorem c5_vocab_failure_sticky :
    get_ner ctorsVocabFail initialNerState =
      (.error ⟨500, initDetail ⟨str "RuntimeError", str "model file missing"⟩⟩,
        ⟨some 1, some 2, some 3, none⟩, 4) ∧
    get_ner ctorsAllOk ⟨some 1, some 2, some 3, none⟩ =
      (.ok (some 1, 3, none), ⟨some 1, some 2, some 3, none⟩, 0) ∧
    (⟨some 1, some 2, some 3, none⟩ : NerState).tagger ≠ none := by
  refine ⟨rfl, rfl, by simp⟩

/-! ## Entity Extractor (`/ner`, app.py lines 133-159) -/

/-- Request body of `POST /ner` (app.py lines 17-18): a single required
string field `text`. -/
structure NerTextRequestBody where
  text : List Char
deriving DecidableEq, Repr

/-- A span of `doc.spans` after tagging, before normalization. -/
structure RawSpan where
  text : List Char
  type : List Char
  start : Nat
  stop : Nat
deriving DecidableEq, Repr

/-- One record of the `/ner` response (app.py lines 147-152). -/
structure Entity where
  text : List Char
  type : List Char
  start : Nat
  stop : Nat
deriving DecidableEq, Repr

/-- The `natasha` pipeline as an oracle: `doc.segment(segmenter)`,
`doc.tag_ner(ner_tagger)` (producing `doc.spans`) and the per-span
`span.normalize(vocab)` (producing the normalized surface text), each taking
the corresponding model handle and each allowed to raise. -/
structure NerOracle where
  segment : Nat → List Char → Except PyErr Unit
  tag : Nat → List Char → Except PyErr (List RawSpan)
  normalizeSpan : Nat → RawSpan → Except PyErr (List Char)

/-- The exception raised when a pipeline method is invoked with a handle
that is still `None`. -/
def noneAttrErr : PyErr := ⟨str "AttributeError", str "NoneType object has no attribute"⟩

/-- The detail string of the generic handler:
`f"NER failed: {type(e).__name__}: {e}"` (app.py line 159). -/
def nerDetail (e : PyErr) : List Char :=
  str "NER failed: " ++ e.category ++ str ": " ++ e.message

/-- The `for s in doc.spans` loop (app.py lines 145-152): normalize each
span in order and collect the entity records; the first exception aborts the
whole request (discarding every record built so far). -/
def normalizeAll (o : NerOracle) (vb : Option Nat) :
    List RawSpan → Except PyErr (List Entity)
  | [] => .ok []
  | sp :: rest =>
    match vb with
    | none => .error noneAttrErr
    | some v =>
      match o.normalizeSpan v sp with
      | .error e => .error e
      | .ok t =>
        match normalizeAll o vb rest with
        | .error e => .error e
        | .ok es => .ok (⟨t, sp.type, sp.start, sp.stop⟩ :: es)

/-- The `ner` endpoint (app.py lines 133-159): obtain handles via `get_ner`
(an `HTTPException` raised there is re-raised as is by the
`except HTTPException: raise` arm), then segment, tag, and normalize the
supplied text; any other exception is wrapped as `500 "NER failed: ..."`. -/
def ner (o : NerOracle) (c : Ctors) (s : NerState) (b : NerTextRequestBody) :
    Except HTTPExc (List Entity) × NerState × Nat :=
  match get_ner c s with
  | (.error exc, s2, k) => (.error exc, s2, k)
  | (.ok (segOpt, tg, vbOpt), s2, k) =>
    match segOpt with
    | none => (.error ⟨500, nerDetail noneAttrErr⟩, s2, k)
    | some sg =>
      match o.segment sg b.text with
      | .error e => (.error ⟨500, nerDetail e⟩, s2, k)
      | .ok _ =>
        match o.tag tg b.text with
        | .error e => (.error ⟨500, nerDetail e⟩, s2, k)
        | .ok spans =>
          match normalizeAll o vbOpt spans with
          | .error e => (.error ⟨500, nerDetail e⟩, s2, k)
          | .ok ents => (.ok ents, s2, k)

/-- The `lemmatize` endpoint as an HTTP handler: it never raises (per-token
failures are absorbed inside `lemmatize`), so it always answers 200. -/
def lemmatizeEndpoint (morph : Morph) (b : LemmaRequestBody) :
    Except HTTPExc (List (List Char × List Char)) :=
  .ok (lemmatize morph b.tokens)

/-- The `lemmatize_text` endpoint as an HTTP handler: it never raises. -/
def lemmatizeTextEndpoint (morph : Morph) (b : LemmaTextRequestBody) :
    Except HTTPExc (List LemmaItem) :=
  .ok (lemmatize_text morph b.text b.window)

theorem get_ner_error_detail (c : Ctors) (s : NerState) (exc : HTTPExc)
    (h : (get_ner c s).1 = .error exc) :
    exc.status = 500 ∧ ∃ e : PyErr, exc.detail = initDetail e := by
  unfold get_ner at h
  repeat' split at h
  all_goals first
    | exact Except.noConfusion h
    | (injection h with h2
       subst h2
       exact ⟨rfl, _, rfl⟩)

/-- C8: every request-level failure response comes only from the NER path
and is HTTP status 500 with a detail of the exact form
`"<phase> failed: <category>: <message>"` where the phase is `NER init` or
`NER`; a failure inside segmentation, tagging, or span normalization yields
a single error for the whole request (no partial entity list is ever
returned); and the two lemmatization endpoints return a successful value for
every input and every analyzer oracle. -/
theorem c8_error_shape (o : NerOracle) (c : Ctors) (s : NerState)
    (b : NerTextRequestBody) (morph : Morph) (tokens : List (List Char))
    (text : List Char) (window : Int) :
    (∀ exc, (ner o c s b).1 = .error exc → exc.status = 500 ∧
      ∃ e : PyErr, exc.detail = initDetail e ∨ exc.detail = nerDetail e) ∧
    (∀ sg tg vbOpt spans e, (get_ner c s).1 = .ok (some sg, tg, vbOpt) →
      o.segment sg b.text = .ok () → o.tag tg b.text = .ok spans →
      normalizeAll o vbOpt spans = .error e →
      (ner o c s b).1 = .error ⟨500, nerDetail e⟩) ∧
    lemmatizeEndpoint morph ⟨tokens⟩ = .ok (lemmatize morph tokens) ∧
    lemmatizeTextEndpoint morph ⟨text, window⟩ =
      .ok (lemmatize_text morph text window) := by
  refine ⟨?_, ?_, rfl, rfl⟩
  · intro exc h
    unfold ner at h
    split at h
    · rename_i exc2 s2 k heq
      injection h with h2
      subst h2
      obtain ⟨h3, e, he⟩ := get_ner_error_detail c s exc2 (by rw [heq])
      exact ⟨h3, e, Or.inl he⟩
    · repeat' split at h
      all_goals first
        | exact Except.noConfusion h
        | (injection h with h2
           subst h2
           exact ⟨rfl, _, Or.inr rfl⟩)
  · intro sg tg vbOpt spans e hget hseg htag hnorm
    unfold ner
    rcases hg : get_ner c s with ⟨res, s2, k⟩
    rw [hg] at hget
    cases res with
    | error exc2 => exact Except.noConfusion hget
    | ok triple =>
      have h2 : triple = (some sg, tg, vbOpt) := by simpa using hget
      subst h2
      simp [hseg, htag, hnorm]

/-- A concrete pipeline oracle for the C8 witness: segmentation and tagging
succeed on every input, but normalizing any span raises `ValueError`. -/
def oracleNormFail : NerOracle :=
  ⟨fun _ _ => .ok (), fun _ _ => .ok [⟨str "Иван", str "PER", 0, 4⟩],
    fun _ _ => .error ⟨str "ValueError", str "bad span"⟩⟩

/-- Witness for C8: a span-normalization failure on the request `"Иван"`
yields the single whole-request error `500 "NER failed: ValueError: ..."`. -/
theorem c8_error_shape_witness :
    (ner oracleNormFail ctorsAllOk initialNerState ⟨str "Иван"⟩).1 =
      .error ⟨500, nerDetail ⟨str "ValueError", str "bad span"⟩⟩ :=
  (c8_error_shape oracleNormFail ctorsAllOk initialNerState ⟨str "Иван"⟩
      morphKoshki [] [] 0).2.1 1 3 (some 4) [⟨str "Иван", str "PER", 0, 4⟩]
    ⟨str "ValueError", str "bad span"⟩ rfl rfl rfl rfl

/-! ## C6: the request shape of `POST /ner`

The source declares `NerTextRequestBody` with the single required field
`text: str` (app.py lines 17-18) and `ner` reads only `data.text`
(app.py line 140).  FastAPI/pydantic validation of that declared model is
modelled on a small JSON universe: an object body validates exactly when it
carries a string under the key `"text"` (extra keys are ignored, per
pydantic's default); any other body — in particular `{"tokens": [...]}` —
is rejected before the handler runs.  No code in app.py joins a token
list into a text string. -/

inductive Json where
  | jnull : Json
  | jstr : List Char → Json
  | jnum : Int → Json
  | jarr : List Json → Json
  | jobj : List (List Char × Json) → Json

/-- Key lookup in a JSON object (first occurrence). -/
def jlookup (fields : List (List Char × Json)) (k : List Char) : Option Json :=
  match fields with
  | [] => none
  | (k2, v) :: rest => if k2 = k then some v else jlookup rest k

/-- Read a JSON value as a string (pydantic `str` in strict JSON mode:
anything but a JSON string is rejected). -/
def asStr : Option Json → Option (List Char)
  | some (.jstr s) => some s
  | _ => none

/-- Pydantic validation of `NerTextRequestBody` (`text: str`, required,
app.py lines 17-18): accept exactly an object with a string `text` field. -/
def validateNerBody (j : Json) : Option NerTextRequestBody :=
  match j with
  | .jobj fields => (asStr (jlookup fields (str "text"))).map NerTextRequestBody.mk
  | _ => none

theorem asStr_eq_some (x : Option Json) (s : List Char) (h : asStr x = some s) :
    x = some (.jstr s) := by
  cases x with
  | none => exact Option.noConfusion h
  | some v =>
    cases v with
    | jstr s2 =>
      have hs : s2 = s := by simpa [asStr] using h
      rw [hs]
    | jnull => exact Option.noConfusion h
    | jnum n => exact Option.noConfusion h
    | jarr xs => exact Option.noConfusion h
    | jobj fs2 => exact Option.noConfusion h

/-- Modelled from the spec: the token-list input adapter the spec describes
for the NER endpoint (§4.5) — join the non-empty tokens of a caller-supplied
token list with a single space.  No such adapter exists anywhere in app.py;
this definition exists only to record what the spec asked for. -/
def joinTokensSpec (tokens : List (List Char)) : List Char :=
  List.intercalate (str " ") (tokens.filter (fun t => !t.isEmpty))

/-- C6 counterexample: the `/ner` request model rejects a token-list body —
`{"tokens": ["кот"]}` fails validation because it has no `text` field, so
the endpoint does not accept a token-list request at all. -/
theorem c6_counterexample :
    validateNerBody (.jobj [(str "tokens", .jarr [.jstr (str "кот")])]) = none := by
  decide

/-- C6 amended: the NER endpoint accepts only a raw-text body: validation
succeeds exactly on objects carrying a string `text` field, whose value
becomes the handler's input text; a body without such a field (e.g. one
carrying only a token list) is rejected, and no token-join adapter runs. -/
theorem c6_text_body_only (j : Json) (b : NerTextRequestBody)
    (fields : List (List Char × Json)) :
    (validateNerBody j = some b →
      ∃ fs, j = .jobj fs ∧ jlookup fs (str "text") = some (.jstr b.text)) ∧
    (jlookup fields (str "text") = none → validateNerBody (.jobj fields) = none) := by
  constructor
  · intro hv
    cases j with
    | jobj fs =>
      refine ⟨fs, rfl, ?_⟩
      obtain ⟨s2, hs2, hb⟩ := Option.map_eq_some'.mp hv
      rw [asStr_eq_some _ _ hs2, ← hb]
    | jnull => exact Option.noConfusion hv
    | jstr s2 => exact Option.noConfusion hv
    | jnum n => exact Option.noConfusion hv
    | jarr xs => exact Option.noConfusion hv
  · intro hnone
    show (asStr (jlookup fields (str "text"))).map NerTextRequestBody.mk = none
    rw [hnone]
    rfl

/-- Witness for the amended C6: the body `{"text": "кот"}` validates, and
the validated text is exactly the supplied string. -/
theorem c6_text_body_only_witness :
    ∃ fs, (Json.jobj [(str "text", Json.jstr (str "кот"))]) = Json.jobj fs ∧
      jlookup fs (str "text") =
        some (.jstr (NerTextRequestBody.mk (str "кот")).text) :=
  (c6_text_body_only (.jobj [(str "text", .jstr (str "кот"))])
    ⟨str "кот"⟩ []).1 (by decide)

end App
